import Mathlib

/-!
Verification of the tree-structure core of `Sixtoto/FoldBuild.py`
(`TreeCreator`): the depth-tagged entry model, the connector renderer,
the tree-text parser and the path resolver, shallowly embedded over
`List Char` strings.  Names and depths are modelled exactly as the
Python code handles them; strings are lists of unicode characters and
machine behaviour such as `str.strip`, `str.replace`, `os.path.basename`
and `os.path.join` (POSIX) is reproduced by explicit definitions below.
-/

/-- One row of the tree model: `(name, depth, is_file)` as stored in
`TreeCreator.structure`. -/
structure Entry where
  name : List Char
  depth : Nat
  isFile : Bool
deriving DecidableEq, Repr

/-- Python `str.isspace`-style whitespace test for the characters that
`str.strip()` / `str.lstrip()` remove (ASCII whitespace set). -/
def pyIsSpace (c : Char) : Bool :=
  c = ' ' || c = '\t' || c = '\n' || c = '\r' || c = '\x0b' || c = '\x0c'

/-- Python `str.lstrip()`. -/
def pyStripL (s : List Char) : List Char :=
  s.dropWhile pyIsSpace

/-- Python `str.rstrip()`. -/
def pyStripR (s : List Char) : List Char :=
  (s.reverse.dropWhile pyIsSpace).reverse

/-- Python `str.strip()`. -/
def pyStrip (s : List Char) : List Char :=
  pyStripR (pyStripL s)

/-- Python `str.rstrip('/')`: remove every trailing `'/'`. -/
def rstripSlash (s : List Char) : List Char :=
  (s.reverse.dropWhile (fun c => c = '/')).reverse

/-- POSIX `os.path.basename`: the part after the last `'/'`. -/
def basename (s : List Char) : List Char :=
  (s.reverse.takeWhile (fun c => c ≠ '/')).reverse

/-- Python `s.startswith('.')`. -/
def headIsDot (s : List Char) : Bool :=
  match s with
  | [] => false
  | c :: _ => c = '.'

/-- Python `s.endswith('/')`. -/
def endsWithSlash (s : List Char) : Bool :=
  match s.getLast? with
  | some c => c = '/'
  | none => false

/-- The auto-detection expression in `TreeCreator.add_item`
(`FoldBuild.py:62-65`): a file iff the basename contains a `'.'`, the
basename does not start with `'.'`, and the name does not end with
`'/'`.  `add_item` evaluates it on the already-stripped name. -/
def auto_detect_is_file (name : List Char) : Bool :=
  ('.' ∈ basename name) && !(headIsDot (basename name)) && !(endsWithSlash name)

/-- `TreeCreator.add_item` (`FoldBuild.py:52-68`).  The first component
is the Python return value (`True` on success, `False` on an
empty-after-strip name); the second is the structure after the call. -/
def add_item (st : List Entry) (name : List Char) (depth : Nat)
    (isFile : Option Bool) : Bool × List Entry :=
  let name := pyStrip name
  if name.isEmpty then
    (false, st)
  else
    let f := match isFile with
      | some b => b
      | none => auto_detect_is_file name
    (true, st ++ [⟨name, depth, f⟩])

/-- `TreeCreator.remove_item` (`FoldBuild.py:70-75`).  The index is an
integer (the Python caller may pass a negative one); in range, the
entry is popped and its NAME (`removed[0]`) is returned, otherwise
`None`.  The first component is the Python return value, the second the
structure after the call. -/
def remove_item (st : List Entry) (index : Int) : Option (List Char) × List Entry :=
  if 0 ≤ index ∧ index < (st.length : Int) then
    let i := index.toNat
    (( st[i]?).map Entry.name, st.take i ++ st.drop (i + 1))
  else
    (none, st)

/-- The forward scan of `TreeCreator.is_last_child_at_depth`
(`FoldBuild.py:125-140`) over the entries after the current one:
stop (last child) at the first entry whose depth is `≤ depth - 1`
(Python computes `parent_depth = current_depth - 1` with ordinary
integers, hence the `Int` comparison), not-last at the first entry of
the same depth. -/
def lastChildScan (depth : Nat) : List Entry → Bool
  | [] => true
  | e :: rest =>
    if (e.depth : Int) ≤ (depth : Int) - 1 then true
    else if e.depth = depth then false
    else lastChildScan depth rest

/-- `TreeCreator.is_last_child_at_depth` (`FoldBuild.py:125-140`): the
scanned depth is read from `structure[index]`.  Out-of-range indices
(never produced by the renderer) default to `true`. -/
def is_last_child_at_depth (st : List Entry) (index : Nat) : Bool :=
  match st[index]? with
  | some e => lastChildScan e.depth (st.drop (index + 1))
  | none => true

/-- The forward scan of `TreeCreator.has_more_siblings_at_level`
(`FoldBuild.py:142-153`): at the first entry whose depth is `≤ level`,
report whether that depth equals `level`; otherwise keep scanning. -/
def siblingScan (level : Nat) : List Entry → Bool
  | [] => false
  | e :: rest =>
    if e.depth ≤ level then decide (e.depth = level)
    else siblingScan level rest

/-- `TreeCreator.has_more_siblings_at_level` (`FoldBuild.py:142-153`). -/
def has_more_siblings_at_level (st : List Entry) (index : Nat) (level : Nat) : Bool :=
  siblingScan level (st.drop (index + 1))

/-- The four-character connector token emitted for one level of the
tree prefix (`FoldBuild.py:113-121`). -/
def pfxToken (st : List Entry) (index depth level : Nat) : List Char :=
  if level = depth - 1 then
    (if is_last_child_at_depth st index then "└── ".toList else "├── ".toList)
  else
    (if has_more_siblings_at_level st index (level + 1) then "│   ".toList else "    ".toList)

/-- `TreeCreator.get_tree_prefix` (`FoldBuild.py:105-123`): empty at
depth 0, otherwise the concatenation of one connector token per level
`0 .. depth-1`. -/
def getTreePrefix (st : List Entry) (index depth : Nat) : List Char :=
  if depth = 0 then []
  else ((List.range depth).map (pfxToken st index depth)).flatten

/-- The type icon chosen by the renderer and the exporters
(`FoldBuild.py:373,401`). -/
def iconOf (isFile : Bool) : Char :=
  if isFile then '📄' else '📁'

/-- One line of the copy-paste / export rendering
(`FoldBuild.py:399-402`): `f"{prefix}{icon} {name}"`. -/
def renderLine (st : List Entry) (index : Nat) : List Char :=
  match st[index]? with
  | some e => getTreePrefix st index e.depth ++ iconOf e.isFile :: ' ' :: e.name
  | none => []

/-- The connector-style rendering of the whole structure, as the list
of its lines (`_export_structure_display`, `FoldBuild.py:399-402`). -/
def renderLines (st : List Entry) : List (List Char) :=
  (List.range st.length).map (renderLine st)

/-- Python `'\n'.join`. -/
def joinNL : List (List Char) → List Char
  | [] => []
  | [l] => l
  | l :: ls => l ++ '\n' :: joinNL ls

/-- The connector-style rendering as a single text, the exact shape a
user copies from `_export_structure_display` and pastes back into
`parse_tree_text`. -/
def exportText (st : List Entry) : List Char :=
  joinNL (renderLines st)

/-- Python `text.split('\n')`: split at every newline, keeping empty
segments; the split of the empty text is one empty segment. -/
def splitNL (s : List Char) : List (List Char) :=
  match s with
  | [] => [[]]
  | c :: rest =>
    if c = '\n' then [] :: splitNL rest
    else
      match splitNL rest with
      | [] => [[c]]
      | a :: as => (c :: a) :: as

/-- Python `pat in s` for a multi-character pattern: contiguous
substring test. -/
def containsSeq (pat : List Char) : List Char → Bool
  | [] => pat.isEmpty
  | c :: rest => pat.isPrefixOf (c :: rest) || containsSeq pat rest

/-- Fuel-driven worker for Python `str.replace(pat, '')`: scan left to
right, removing each non-overlapping occurrence of `pat`.  The fuel is
an upper bound on the length of the remaining text. -/
def removeAllGo (pat : List Char) : Nat → List Char → List Char
  | _, [] => []
  | 0, s => s
  | fuel + 1, c :: rest =>
    if (!pat.isEmpty) && pat.isPrefixOf (c :: rest) then
      removeAllGo pat fuel (List.drop (pat.length - 1) rest)
    else
      c :: removeAllGo pat fuel rest

/-- Python `s.replace(pat, '')`. -/
def removeAll (pat s : List Char) : List Char :=
  removeAllGo pat s.length s

/-- The glyph-removal cascade of `parse_tree_line`
(`FoldBuild.py:708-710`): successive `replace(x, '')` for
`'├──'`, `'└──'`, `'│'`, `'─'`, `'├'`, `'└'`. -/
def removeGlyphs (s : List Char) : List Char :=
  removeAll ['└'] (removeAll ['├'] (removeAll ['─'] (removeAll ['│']
    (removeAll ['└', '─', '─'] (removeAll ['├', '─', '─'] s)))))

/-- `TreeCreator.parse_tree_line` (`FoldBuild.py:689-717`): dialect
selection (any of `'├'`, `'└'`, `'│'`, `'─'` present means connector
dialect, whose depth is the count of `'│'`, possibly re-assigned — to
the same value — when `'├──'` or `'└──'` occurs; otherwise leading
whitespace integer-divided by 4), then the name obtained by removing
all glyph sequences and stripping; an empty name yields `(None, 0)`. -/
def parse_tree_line (line : List Char) : Option (List Char) × Nat :=
  let depth :=
    if '├' ∈ line || '└' ∈ line || '│' ∈ line || '─' ∈ line then
      let d := line.count '│'
      if containsSeq ("├──".toList) line || containsSeq ("└──".toList) line then
        line.count '│'
      else d
    else
      (line.length - (pyStripL line).length) / 4
  let name := pyStrip (removeGlyphs line)
  if name.isEmpty then (none, 0) else (some name, depth)

/-- The classification expression inside `parse_tree_text`
(`FoldBuild.py:676-678`); unlike `add_item`, the leading-dot test is
`name.startswith('.')` on the whole name, not on the basename. -/
def parse_auto_is_file (name : List Char) : Bool :=
  ('.' ∈ basename name) && !(headIsDot name) && !(endsWithSlash name)

/-- The per-line body of the loop in `TreeCreator.parse_tree_text`
(`FoldBuild.py:668-685`): skip blank lines, parse, auto-classify
(NOTE: the leading-dot test is on the WHOLE name here, unlike
`add_item`'s basename test), then drop one leading `'/'` and all
trailing `'/'`. -/
def parseEntryOfLine (line : List Char) : Option Entry :=
  if (pyStrip line).isEmpty then none
  else
    match parse_tree_line line with
    | (none, _) => none
    | (some name, depth) =>
      let isFile := parse_auto_is_file name
      let name := if name.head? = some '/' then name.tail else name
      some ⟨rstripSlash name, depth, isFile⟩

/-- `TreeCreator.parse_tree_text` (`FoldBuild.py:663-687`): strip the
whole text, split on newlines, keep the lines that yield entries. -/
def parse_tree_text (text : List Char) : List Entry :=
  (splitNL (pyStrip text)).filterMap parseEntryOfLine

/-- One step of POSIX `os.path.join`: an absolute component resets the
result, otherwise a separator is inserted unless one is already
present. -/
def joinOne (acc comp : List Char) : List Char :=
  if comp.head? = some '/' then comp
  else if acc.isEmpty || acc.getLast? = some '/' then acc ++ comp
  else acc ++ '/' :: comp

/-- POSIX `os.path.join(p, *rest)` on a non-empty component list. -/
def posixJoin (parts : List (List Char)) : List Char :=
  match parts with
  | [] => []
  | p :: rest => rest.foldl joinOne p

/-- The loop body of `TreeCreator.convert_to_file_paths`
(`FoldBuild.py:727-741`): truncate the ancestor stack to the entry's
depth, join stack and name (`os.path.join(*stack, name)` when the
stack is non-empty, the bare name otherwise), emit the pair, and push
folder names. -/
def convertStep (acc : List (List Char × Bool) × List (List Char)) (e : Entry) :
    List (List Char × Bool) × List (List Char) :=
  let stack := acc.2.take e.depth
  let fullPath := if stack.isEmpty then e.name else posixJoin (stack ++ [e.name])
  (acc.1 ++ [(fullPath, e.isFile)], if e.isFile then stack else stack ++ [e.name])

/-- `TreeCreator.convert_to_file_paths` (`FoldBuild.py:719-743`). -/
def convert_to_file_paths (st : List Entry) : List (List Char × Bool) :=
  (st.foldl convertStep ([], [])).1

/-- The resolver as the claim describes it: walk the entries with a
stack of ancestor names, truncate the stack to the entry's depth, emit
the separator-join of stack and name, and push the name iff the entry
is a folder. -/
def resolveSpec (stack : List (List Char)) : List Entry → List (List Char × Bool)
  | [] => []
  | e :: rest =>
    let stack' := stack.take e.depth
    (posixJoin (stack' ++ [e.name]), e.isFile) ::
      resolveSpec (if e.isFile then stack' else stack' ++ [e.name]) rest

/-- The `add` interface as the claim states it: `Result<index, Error>`
— `none` when the name is empty after trimming, otherwise the index of
the appended entry (the length of the previous sequence). -/
def addClaimIndex (st : List Entry) (name : List Char) : Option Nat :=
  if (pyStrip name).isEmpty then none else some st.length

/-- `add_item`'s auto-classification as the claim words it: a file iff
the base name contains a `'.'` not at position 0 (leading-dot names
exempt) and the name does not end with a path separator. -/
def claimAutoIsFile (name : List Char) : Bool :=
  ('.' ∈ basename name) && !(headIsDot (basename name)) && !(endsWithSlash name)

/-- `parse_tree_line` as the claim words it: connector dialect exactly
when a vertical-bar, branch, or corner glyph occurs (the claim does not
list the horizontal-dash glyph `'─'`); in the indentation dialect the
name is the trimmed remainder of the line. -/
def claimParseLine (line : List Char) : Option (List Char) × Nat :=
  let connector := '│' ∈ line || '├' ∈ line || '└' ∈ line
  let depth :=
    if connector then line.count '│'
    else (line.length - (pyStripL line).length) / 4
  let name := if connector then pyStrip (removeGlyphs line) else pyStrip line
  if name.isEmpty then (none, 0) else (some name, depth)

/-- `parse_tree_line` as the amended claim words it: identical to
`claimParseLine` except that the horizontal-dash glyph `'─'` also
selects the connector dialect, matching the source's trigger list. -/
def claimParseLineAmended (line : List Char) : Option (List Char) × Nat :=
  let connector := '│' ∈ line || '├' ∈ line || '└' ∈ line || '─' ∈ line
  let depth :=
    if connector then line.count '│'
    else (line.length - (pyStripL line).length) / 4
  let name := if connector then pyStrip (removeGlyphs line) else pyStrip line
  if name.isEmpty then (none, 0) else (some name, depth)

/-- The four box-drawing glyphs that drive `parse_tree_line`. -/
def glyphChars : List Char := ['│', '─', '├', '└']

/-- A line containing a non-whitespace, non-glyph character: such a
character survives glyph removal and stripping, so the line always
yields a parsed entry. -/
def HasKeep (l : List Char) : Prop :=
  ∃ c, c ∈ l ∧ pyIsSpace c = false ∧ c ∉ glyphChars

/-- `text.strip()` seen through `split('\n')`: the head segment loses
its leading whitespace. -/
def stripHeadL : List (List Char) → List (List Char)
  | [] => []
  | l :: ls => pyStripL l :: ls

/-- `text.strip()` seen through `split('\n')`: the last segment loses
its trailing whitespace. -/
def stripLastR : List (List Char) → List (List Char)
  | [] => []
  | [l] => [pyStripR l]
  | l :: ls => l :: stripLastR ls

/-! ### Helper lemmas -/

theorem posixJoin_single (n : List Char) : posixJoin [n] = n := rfl

theorem convert_foldl_eq (rest : List Entry) :
    ∀ (acc : List (List Char × Bool)) (stack : List (List Char)),
      (rest.foldl convertStep (acc, stack)).1 = acc ++ resolveSpec stack rest := by
  induction rest with
  | nil => intro acc stack; simp [resolveSpec]
  | cons e rest ih =>
    intro acc stack
    rw [List.foldl_cons, ih]
    show (acc ++ [(_, e.isFile)]) ++ _ = _
    rw [List.append_assoc]
    congr 1
    simp only [resolveSpec, List.singleton_append]
    congr 2
    by_cases h : (stack.take e.depth).isEmpty
    · rw [if_pos h]
      rw [List.isEmpty_iff] at h
      rw [h, List.nil_append, posixJoin_single]
    · rw [if_neg h]

theorem convert_eq_resolveSpec (st : List Entry) :
    convert_to_file_paths st = resolveSpec [] st := by
  unfold convert_to_file_paths
  rw [convert_foldl_eq, List.nil_append]

theorem resolveSpec_length (rest : List Entry) :
    ∀ stack, (resolveSpec stack rest).length = rest.length := by
  induction rest with
  | nil => intro stack; rfl
  | cons e rest ih => intro stack; simp [resolveSpec, ih]

/-- C1: `convert_to_file_paths` emits exactly one `(relativePath,
is_file)` pair per input entry in input order, computed by truncating
the ancestor stack to the entry's depth, joining stack and name with
the path separator, and pushing the name iff the entry is a folder
(`resolveSpec` is the claim's stack recursion); the two concrete
resolutions of the claim hold. -/
theorem convert_to_file_paths_spec :
    (∀ st : List Entry, convert_to_file_paths st = resolveSpec [] st)
    ∧ (∀ st : List Entry, (convert_to_file_paths st).length = st.length)
    ∧ convert_to_file_paths
        [⟨"a".toList, 0, false⟩, ⟨"b".toList, 1, false⟩, ⟨"c".toList, 2, true⟩]
      = [("a".toList, false), ("a/b".toList, false), ("a/b/c".toList, true)]
    ∧ convert_to_file_paths
        [⟨"a".toList, 0, false⟩, ⟨"b".toList, 1, false⟩, ⟨"c".toList, 0, false⟩]
      = [("a".toList, false), ("a/b".toList, false), ("c".toList, false)] := by
  refine ⟨convert_eq_resolveSpec, ?_, by decide, by decide⟩
  intro st
  rw [convert_eq_resolveSpec, resolveSpec_length]

theorem add_item_strip_empty {st : List Entry} {name : List Char} {depth : Nat}
    {f : Option Bool} (h : pyStrip name = []) :
    add_item st name depth f = (false, st) := by
  simp [add_item, h]

theorem add_item_strip_ne_empty {st : List Entry} {name : List Char} {depth : Nat}
    {f : Option Bool} (h : pyStrip name ≠ []) :
    add_item st name depth f =
      (true, st ++ [⟨pyStrip name, depth,
        f.getD (auto_detect_is_file (pyStrip name))⟩]) := by
  have h' : (pyStrip name).isEmpty = false := by
    simpa [List.isEmpty_iff] using h
  cases f <;> simp [add_item, h', Option.getD]

/-- C3 counterexample: for two folders at depth 0, the renderer emits
EMPTY tree prefixes for both — neither the continuing-branch connector
for `x` nor the terminal corner connector for `y` appears anywhere in
their lines. -/
theorem depth0_connectors_cex :
    getTreePrefix [⟨"x".toList, 0, false⟩, ⟨"y".toList, 0, false⟩] 0 0 = []
    ∧ getTreePrefix [⟨"x".toList, 0, false⟩, ⟨"y".toList, 0, false⟩] 1 0 = []
    ∧ renderLines [⟨"x".toList, 0, false⟩, ⟨"y".toList, 0, false⟩]
        = ["📁 x".toList, "📁 y".toList]
    ∧ containsSeq ("├── ".toList) ("📁 x".toList) = false
    ∧ containsSeq ("└── ".toList) ("📁 y".toList) = false := by decide

/-- C3 amended: depth-0 entries are rendered with an empty prefix; the
continuing-branch / terminal-corner distinction appears from depth 1
on: below a common folder, the first of two sibling folders is marked
`"├── "` and the last `"└── "`. -/
theorem connectors_from_depth1 :
    getTreePrefix [⟨"r".toList, 0, false⟩, ⟨"x".toList, 1, false⟩,
        ⟨"y".toList, 1, false⟩] 1 1 = "├── ".toList
    ∧ getTreePrefix [⟨"r".toList, 0, false⟩, ⟨"x".toList, 1, false⟩,
        ⟨"y".toList, 1, false⟩] 2 1 = "└── ".toList
    ∧ renderLines [⟨"r".toList, 0, false⟩, ⟨"x".toList, 1, false⟩,
        ⟨"y".toList, 1, false⟩]
      = ["📁 r".toList, "├── 📁 x".toList, "└── 📁 y".toList]
    ∧ (∀ st : List Entry, ∀ index : Nat, getTreePrefix st index 0 = []) := by
  refine ⟨by decide, by decide, by decide, ?_⟩
  intro st index
  simp [getTreePrefix]

/-- C4 counterexample: `add_item` returns `True` (a constant success
flag), not the new entry's index: adding the same name to sequences of
lengths 0 and 1 yields the SAME return value although the claimed
indices (`addClaimIndex`, the claim's `Result<index, Error>` reading)
differ. -/
theorem add_return_not_index_cex :
    (add_item [] ("a".toList) 0 none).1
      = (add_item [⟨"e".toList, 0, false⟩] ("a".toList) 0 none).1
    ∧ addClaimIndex [] ("a".toList) = some 0
    ∧ addClaimIndex [⟨"e".toList, 0, false⟩] ("a".toList) = some 1
    ∧ (some 0 : Option Nat) ≠ some 1 := by decide

/-- C4 amended: `add_item` trims the name and fails — returning `False`
and leaving the sequence unchanged — iff the name is empty after
trimming; otherwise it appends exactly one entry carrying the trimmed
name at the end (prior entries unchanged) and returns the success flag
`True` (not the new entry's index, which equals the prior length). -/
theorem add_item_result :
    ∀ (st : List Entry) (name : List Char) (depth : Nat) (f : Option Bool),
      (pyStrip name = [] → add_item st name depth f = (false, st))
      ∧ (pyStrip name ≠ [] →
          add_item st name depth f =
            (true, st ++ [⟨pyStrip name, depth,
              f.getD (auto_detect_is_file (pyStrip name))⟩])
          ∧ addClaimIndex st name = some st.length) := by
  intro st name depth f
  refine ⟨fun h => add_item_strip_empty h, fun h => ⟨add_item_strip_ne_empty h, ?_⟩⟩
  simp [addClaimIndex, List.isEmpty_iff, h]

theorem add_item_result_witness :
    pyStrip ("a".toList) ≠ []
    ∧ (add_item [] ("a".toList) 0 none = (true, [⟨"a".toList, 0, false⟩])
        ∧ addClaimIndex [] ("a".toList) = some 0) :=
  ⟨by decide, (add_item_result [] ("a".toList) 0 none).2 (by decide)⟩

/-- C5: when `is_file` is unspecified, `add_item` classifies by the
claim's rule — file iff the base name contains a `'.'` not at position
0 (leading-dot exempt) and the name does not end with a separator —
equivalently, an unspecified flag behaves exactly like passing the
auto-detected flag; the three claimed classifications hold. -/
theorem add_auto_classification :
    (∀ name : List Char, auto_detect_is_file name = claimAutoIsFile name)
    ∧ (∀ (st : List Entry) (name : List Char) (depth : Nat),
        add_item st name depth none
          = add_item st name depth (some (auto_detect_is_file (pyStrip name))))
    ∧ add_item [] ("report.pdf".toList) 0 none
        = (true, [⟨"report.pdf".toList, 0, true⟩])
    ∧ add_item [] (".gitignore".toList) 0 none
        = (true, [⟨".gitignore".toList, 0, false⟩])
    ∧ add_item [] ("src".toList) 0 none
        = (true, [⟨"src".toList, 0, false⟩]) := by
  refine ⟨fun name => rfl, ?_, by decide, by decide, by decide⟩
  intro st name depth
  by_cases h : pyStrip name = []
  · rw [add_item_strip_empty h, add_item_strip_empty h]
  · rw [add_item_strip_ne_empty h, add_item_strip_ne_empty h]
    rfl

/-- C7 counterexample: `remove_item` returns only the removed entry's
NAME (`removed[0]`), not the removed `Entry`: removing from two
single-entry sequences whose entries differ in the file flag yields
identical return values, which the removed entries could not. -/
theorem remove_returns_name_cex :
    remove_item [⟨"a".toList, 0, true⟩] 0 = (some ("a".toList), [])
    ∧ remove_item [⟨"a".toList, 0, false⟩] 0 = (some ("a".toList), [])
    ∧ (⟨"a".toList, 0, true⟩ : Entry) ≠ ⟨"a".toList, 0, false⟩ := by decide

/-- C7 amended: for `0 ≤ index < length`, `remove_item` deletes exactly
the indexed entry — the remaining entries keep their name, depth and
flag, depths are not renormalized — and returns the removed entry's
name; any out-of-range index, negative ones included, returns `None`
and leaves the sequence unchanged. -/
theorem remove_item_result :
    (∀ (st : List Entry) (i : Nat) (hi : i < st.length),
        remove_item st (i : Int)
          = (some (st.get ⟨i, hi⟩).name, st.take i ++ st.drop (i + 1)))
    ∧ (∀ (st : List Entry) (index : Int),
        ¬(0 ≤ index ∧ index < (st.length : Int)) →
          remove_item st index = (none, st)) := by
  constructor
  · intro st i hi
    have h : 0 ≤ (i : Int) ∧ (i : Int) < (st.length : Int) :=
      ⟨Int.natCast_nonneg i, by exact_mod_cast hi⟩
    simp [remove_item, h, List.getElem?_eq_getElem hi]
  · intro st index h
    simp [remove_item, h]

theorem remove_item_result_witness :
    (remove_item [⟨"a".toList, 0, true⟩, ⟨"b".toList, 1, false⟩] ((1 : Nat) : Int)
        = (some ("b".toList), [⟨"a".toList, 0, true⟩]))
    ∧ (¬(0 ≤ (-1 : Int) ∧ (-1 : Int) < (([] : List Entry).length : Int))
        ∧ remove_item [] (-1) = (none, [])) :=
  ⟨remove_item_result.1 [⟨"a".toList, 0, true⟩, ⟨"b".toList, 1, false⟩] 1 (by decide),
   ⟨by decide, remove_item_result.2 [] (-1) (by decide)⟩⟩

/-- C9 counterexample: the Entry invariant fails on the code —
`parse_tree_text` turns the line `"/"` into an entry with an EMPTY
name, and `add_item` happily stores a name with an embedded path
separator (`"a/b"`). -/
theorem entry_invariant_cex :
    parse_tree_text ("/".toList) = [⟨[], 0, false⟩]
    ∧ (add_item [] ("a/b".toList) 0 none).2 = [⟨"a/b".toList, 0, false⟩]
    ∧ '/' ∈ ("a/b".toList) := by decide

/-- C9 amended: of the claimed invariant only this survives: every
entry in the sequence after an `add_item` call is either an old entry
or carries a non-empty (trimmed) name — depths are non-negative by
construction, but names may embed path separators, and entries produced
by `parse_tree_text` can even have empty names. -/
theorem add_item_entries_from :
    ∀ (st : List Entry) (name : List Char) (depth : Nat) (f : Option Bool),
      ∀ e ∈ (add_item st name depth f).2, e ∈ st ∨ e.name ≠ [] := by
  intro st name depth f e he
  by_cases h : pyStrip name = []
  · rw [add_item_strip_empty h] at he
    exact Or.inl he
  · rw [add_item_strip_ne_empty h] at he
    rcases List.mem_append.mp he with h1 | h2
    · exact Or.inl h1
    · right
      have : e = ⟨pyStrip name, depth, f.getD (auto_detect_is_file (pyStrip name))⟩ :=
        List.mem_singleton.mp h2
      rw [this]
      exact h
  
theorem add_item_entries_from_witness :
    (⟨"a".toList, 0, false⟩ : Entry) ∈ ([] : List Entry) ∨ "a".toList ≠ ([] : List Char) :=
  add_item_entries_from [] ("a".toList) 0 none ⟨"a".toList, 0, false⟩ (by decide)

/-- C10: an explicit `is_file` argument is stored verbatim and the
extension-based auto-detection is never consulted: with a non-empty
trimmed name, `add_item st name d (some b)` appends exactly
`(trimmed, d, b)`; in particular `"notes.txt"` is stored as a folder
and `"src"` as a file on request, against their auto-detected
classes. -/
theorem add_explicit_flag_verbatim :
    (∀ (st : List Entry) (name : List Char) (depth : Nat) (b : Bool),
        pyStrip name ≠ [] →
          add_item st name depth (some b)
            = (true, st ++ [⟨pyStrip name, depth, b⟩]))
    ∧ add_item [] ("notes.txt".toList) 0 (some false)
        = (true, [⟨"notes.txt".toList, 0, false⟩])
    ∧ add_item [] ("src".toList) 0 (some true)
        = (true, [⟨"src".toList, 0, true⟩])
    ∧ auto_detect_is_file ("notes.txt".toList) = true
    ∧ auto_detect_is_file ("src".toList) = false := by
  refine ⟨?_, by decide, by decide, by decide, by decide⟩
  intro st name depth b h
  rw [add_item_strip_ne_empty h]
  rfl

theorem add_explicit_flag_verbatim_witness :
    pyStrip ("x".toList) ≠ []
    ∧ add_item [] ("x".toList) 1 (some true) = (true, [⟨"x".toList, 1, true⟩]) :=
  ⟨by decide, add_explicit_flag_verbatim.1 [] ("x".toList) 1 true (by decide)⟩

theorem removeAllGo_of_head_not_mem {g : Char} {pat : List Char} :
    ∀ (fuel : Nat) (s : List Char), g ∉ s → removeAllGo (g :: pat) fuel s = s := by
  intro fuel
  induction fuel with
  | zero => intro s h; cases s <;> rfl
  | succ n ih =>
    intro s h
    cases s with
    | nil => rfl
    | cons c rest =>
      have hg : (g == c) = false := by
        simp only [beq_eq_false_iff_ne, ne_eq]
        intro hgc
        exact h (hgc ▸ List.mem_cons_self c rest)
      simp only [removeAllGo, List.isPrefixOf, hg, Bool.false_and, Bool.and_false,
        if_neg, Bool.false_eq_true, not_false_eq_true]
      rw [ih rest (fun hm => h (List.mem_cons_of_mem c hm))]

theorem removeAll_of_head_not_mem {g : Char} {pat s : List Char} (h : g ∉ s) :
    removeAll (g :: pat) s = s :=
  removeAllGo_of_head_not_mem s.length s h

theorem removeGlyphs_id {s : List Char} (h1 : '│' ∉ s) (h2 : '├' ∉ s)
    (h3 : '└' ∉ s) (h4 : '─' ∉ s) : removeGlyphs s = s := by
  unfold removeGlyphs
  rw [removeAll_of_head_not_mem h2, removeAll_of_head_not_mem h3,
    removeAll_of_head_not_mem h1, removeAll_of_head_not_mem h4,
    removeAll_of_head_not_mem h2, removeAll_of_head_not_mem h3]

theorem parse_tree_line_eq_amended_aux (line : List Char) :
    parse_tree_line line = claimParseLineAmended line := by
  by_cases h1 : '│' ∈ line <;> by_cases h2 : '├' ∈ line <;>
    by_cases h3 : '└' ∈ line <;> by_cases h4 : '─' ∈ line <;>
      simp [parse_tree_line, claimParseLineAmended, h1, h2, h3, h4,
        removeGlyphs_id]

/-- C6 counterexample: a line containing only the horizontal-dash glyph
`'─'` (no vertical bar, branch or corner) is treated by the code as
connector dialect — depth 0, dash removed from the name — while the
claim's dialect rule (`claimParseLine`) makes it indentation dialect
with depth `4 / 4 = 1` and name `"─x"`. -/
theorem parse_line_dash_dialect_cex :
    parse_tree_line ("    ─x".toList) = (some ("x".toList), 0)
    ∧ claimParseLine ("    ─x".toList) = (some ("─x".toList), 1)
    ∧ parse_tree_line ("    ─x".toList) ≠ claimParseLine ("    ─x".toList) := by
  decide

/-- C6 amended: `parse_tree_line` behaves exactly as the claim states
once the horizontal-dash glyph `'─'` is added to the connector-dialect
trigger set: connector depth is the vertical-bar count, indentation
depth is leading whitespace divided by 4, names are glyph-stripped and
trimmed, and an empty name yields `None` rather than an entry. -/
theorem parse_line_matches_amended_claim :
    ∀ line : List Char, parse_tree_line line = claimParseLineAmended line :=
  parse_tree_line_eq_amended_aux

theorem basename_of_no_slash {name : List Char} (h : '/' ∉ name) :
    basename name = name := by
  unfold basename
  rw [List.takeWhile_eq_self_iff.mpr, List.reverse_reverse]
  intro c hc
  simp only [decide_eq_true_eq, ne_eq]
  intro hcs
  exact h (hcs ▸ List.mem_reverse.mp hc)

/-- C8 counterexample: the line `"/.gitignore"` is parsed to the name
`"/.gitignore"`, which `parse_tree_text` classifies as a FILE (its
leading-dot test looks at the whole name, which starts with `'/'`),
while `add_item`'s auto-detection on that same name yields FOLDER (its
leading-dot test looks at the basename `".gitignore"`). -/
theorem parse_vs_add_classifier_cex :
    parse_tree_line ("/.gitignore".toList) = (some ("/.gitignore".toList), 0)
    ∧ parse_tree_text ("/.gitignore".toList) = [⟨".gitignore".toList, 0, true⟩]
    ∧ auto_detect_is_file (pyStrip ("/.gitignore".toList)) = false
    ∧ parse_auto_is_file ("/.gitignore".toList) = true := by decide

/-- C8 amended: `parse_tree_text`'s classifier agrees with `add_item`'s
auto-detection on every name free of path separators; in general the
two differ only in the leading-dot test, which parse applies to the
whole name and add to its basename. -/
theorem parse_classifier_eq_on_sep_free :
    ∀ name : List Char, '/' ∉ name →
      parse_auto_is_file name = auto_detect_is_file name := by
  intro name h
  unfold parse_auto_is_file auto_detect_is_file
  rw [basename_of_no_slash h]

theorem parse_classifier_eq_on_sep_free_witness :
    ('/' ∉ ("a.txt".toList))
    ∧ parse_auto_is_file ("a.txt".toList) = auto_detect_is_file ("a.txt".toList) :=
  ⟨by decide, parse_classifier_eq_on_sep_free ("a.txt".toList) (by decide)⟩

/-! ### Infrastructure for the render/parse round-trip analysis -/

theorem mem_dropWhile_of_not {p : Char → Bool} {c : Char} :
    ∀ {l : List Char}, c ∈ l → p c = false → c ∈ l.dropWhile p := by
  intro l
  induction l with
  | nil => intro h _; exact absurd h (List.not_mem_nil c)
  | cons a t ih =>
    intro hc hp
    by_cases ha : p a = true
    · rw [List.dropWhile_cons_of_pos ha]
      rcases List.mem_cons.mp hc with rfl | ht
      · rw [hp] at ha; exact absurd ha (by simp)
      · exact ih ht hp
    · rw [List.dropWhile_cons_of_neg ha]
      exact hc

theorem mem_pyStripL {c : Char} {l : List Char} (hc : c ∈ l)
    (hws : pyIsSpace c = false) : c ∈ pyStripL l :=
  mem_dropWhile_of_not hc hws

theorem mem_pyStripR {c : Char} {l : List Char} (hc : c ∈ l)
    (hws : pyIsSpace c = false) : c ∈ pyStripR l := by
  unfold pyStripR
  rw [List.mem_reverse]
  exact mem_dropWhile_of_not (List.mem_reverse.mpr hc) hws

theorem mem_pyStrip {c : Char} {l : List Char} (hc : c ∈ l)
    (hws : pyIsSpace c = false) : c ∈ pyStrip l :=
  mem_pyStripR (mem_pyStripL hc hws) hws

theorem mem_of_pyStripL {c : Char} {l : List Char} (h : c ∈ pyStripL l) : c ∈ l :=
  (List.dropWhile_sublist _).mem h

theorem mem_of_pyStripR {c : Char} {l : List Char} (h : c ∈ pyStripR l) : c ∈ l := by
  unfold pyStripR at h
  rw [List.mem_reverse] at h
  exact List.mem_reverse.mp ((List.dropWhile_sublist _).mem h)

theorem isPrefixOf_decomp {l1 : List Char} :
    ∀ {l2 : List Char}, l1.isPrefixOf l2 = true → l2 = l1 ++ l2.drop l1.length := by
  induction l1 with
  | nil => intro l2 _; rfl
  | cons a as ih =>
    intro l2 h
    cases l2 with
    | nil => exact absurd h (by simp [List.isPrefixOf])
    | cons b bs =>
      have hsplit : a = b ∧ as.isPrefixOf bs = true := by
        simpa [List.isPrefixOf] using h
      have hab : a = b := hsplit.1
      have := ih hsplit.2
      simp only [List.length_cons, List.drop_succ_cons]
      rw [hab, List.cons_append]
      exact congrArg (b :: ·) this

theorem mem_removeAllGo {pat : List Char} {c : Char} (hcp : c ∉ pat) :
    ∀ (fuel : Nat) {s : List Char}, c ∈ s → c ∈ removeAllGo pat fuel s := by
  intro fuel
  induction fuel with
  | zero =>
    intro s hs
    cases s with
    | nil => exact absurd hs (List.not_mem_nil c)
    | cons a rest => exact hs
  | succ n ih =>
    intro s hs
    cases s with
    | nil => exact hs
    | cons a rest =>
      by_cases hp : ((!pat.isEmpty) && pat.isPrefixOf (a :: rest)) = true
      · have hred : removeAllGo pat (n + 1) (a :: rest)
            = removeAllGo pat n (List.drop (pat.length - 1) rest) := by
          simp [removeAllGo, hp]
        rw [hred]
        have hsplit : (!pat.isEmpty) = true ∧ pat.isPrefixOf (a :: rest) = true := by
          simpa using hp
        have hne : pat ≠ [] := by
          simpa [List.isEmpty_iff] using hsplit.1
        obtain ⟨g, gs, rfl⟩ := List.exists_cons_of_ne_nil hne
        have hdec := isPrefixOf_decomp hsplit.2
        simp only [List.length_cons, List.drop_succ_cons, Nat.add_sub_cancel] at hdec ⊢
        rw [hdec] at hs
        rcases List.mem_append.mp hs with hin | hout
        · exact absurd hin hcp
        · exact ih hout
      · have hred : removeAllGo pat (n + 1) (a :: rest)
            = a :: removeAllGo pat n rest := by
          simp only [removeAllGo]
          rw [if_neg (by simpa using hp)]
        rw [hred]
        rcases List.mem_cons.mp hs with rfl | ht
        · exact List.mem_cons_self _ _
        · exact List.mem_cons_of_mem _ (ih ht)

theorem mem_removeAll {pat s : List Char} {c : Char} (hc : c ∈ s) (hcp : c ∉ pat) :
    c ∈ removeAll pat s :=
  mem_removeAllGo hcp s.length hc

theorem mem_removeGlyphs {c : Char} {s : List Char} (hc : c ∈ s)
    (hg : c ∉ glyphChars) : c ∈ removeGlyphs s := by
  have nsub : ∀ pat : List Char, (∀ x ∈ pat, x ∈ glyphChars) → c ∉ pat :=
    fun pat hsub hmem => hg (hsub c hmem)
  unfold removeGlyphs
  apply mem_removeAll _ (nsub _ (by decide))
  apply mem_removeAll _ (nsub _ (by decide))
  apply mem_removeAll _ (nsub _ (by decide))
  apply mem_removeAll _ (nsub _ (by decide))
  apply mem_removeAll _ (nsub _ (by decide))
  exact mem_removeAll hc (nsub _ (by decide))

theorem parse_tree_line_fst {l : List Char} (h : pyStrip (removeGlyphs l) ≠ []) :
    (parse_tree_line l).1 = some (pyStrip (removeGlyphs l)) := by
  have h' : (pyStrip (removeGlyphs l)).isEmpty = false := by
    simpa [List.isEmpty_iff] using h
  simp [parse_tree_line, h']

theorem parseEntryOfLine_isSome {l : List Char} (hk : HasKeep l) :
    (parseEntryOfLine l).isSome = true := by
  obtain ⟨c, hcl, hws, hg⟩ := hk
  have hblank : (pyStrip l).isEmpty = false := by
    simpa [List.isEmpty_iff] using List.ne_nil_of_mem (mem_pyStrip hcl hws)
  have hname : pyStrip (removeGlyphs l) ≠ [] :=
    List.ne_nil_of_mem (mem_pyStrip (mem_removeGlyphs hcl hg) hws)
  have hfst := parse_tree_line_fst hname
  unfold parseEntryOfLine
  rw [hblank]
  simp only [Bool.false_eq_true, if_false]
  rw [← Prod.mk.eta (p := parse_tree_line l), hfst]
  rfl

theorem length_filterMap_of_isSome {f : List Char → Option Entry} :
    ∀ {ls : List (List Char)}, (∀ l ∈ ls, (f l).isSome = true) →
      (ls.filterMap f).length = ls.length := by
  intro ls
  induction ls with
  | nil => intro _; rfl
  | cons l t ih =>
    intro h
    obtain ⟨e, he⟩ := Option.isSome_iff_exists.mp (h l (List.mem_cons_self l t))
    rw [List.filterMap_cons, he]
    simp only [List.length_cons]
    rw [ih (fun x hx => h x (List.mem_cons_of_mem l hx))]

theorem splitNL_of_not_nl : ∀ {s : List Char}, '\n' ∉ s → splitNL s = [s] := by
  intro s
  induction s with
  | nil => intro _; rfl
  | cons c rest ih =>
    intro h
    have hc : ¬(c = '\n') := fun he => h (he ▸ List.mem_cons_self c rest)
    have ht := ih (fun hm => h (List.mem_cons_of_mem c hm))
    simp [splitNL, hc, ht]

theorem splitNL_append {a b : List Char} (ha : '\n' ∉ a) :
    splitNL (a ++ '\n' :: b) = a :: splitNL b := by
  induction a with
  | nil => simp [splitNL]
  | cons c t ih =>
    have hc : ¬(c = '\n') := fun he => ha (he ▸ List.mem_cons_self c t)
    have ht := ih (fun hm => ha (List.mem_cons_of_mem c hm))
    simp [splitNL, hc, ht]

theorem dropWhile_append_of_mem {p : Char → Bool} :
    ∀ {a : List Char}, (∃ c ∈ a, p c = false) → ∀ (b : List Char),
      (a ++ b).dropWhile p = a.dropWhile p ++ b := by
  intro a
  induction a with
  | nil =>
    intro h b
    obtain ⟨c, hc, _⟩ := h
    exact absurd hc (List.not_mem_nil c)
  | cons x t ih =>
    intro h b
    by_cases hx : p x = true
    · have hwit : ∃ c ∈ t, p c = false := by
        obtain ⟨c, hc, hpc⟩ := h
        rcases List.mem_cons.mp hc with rfl | ht
        · rw [hx] at hpc; exact absurd hpc (by simp)
        · exact ⟨c, ht, hpc⟩
      rw [List.cons_append, List.dropWhile_cons_of_pos hx,
        List.dropWhile_cons_of_pos hx]
      exact ih hwit b
    · rw [List.cons_append, List.dropWhile_cons_of_neg hx,
        List.dropWhile_cons_of_neg hx, List.cons_append]

theorem pyStripL_append {a : List Char} (h : ∃ c ∈ a, pyIsSpace c = false)
    (b : List Char) : pyStripL (a ++ b) = pyStripL a ++ b :=
  dropWhile_append_of_mem h b

theorem pyStripR_append (a : List Char) {b : List Char}
    (h : ∃ c ∈ b, pyIsSpace c = false) : pyStripR (a ++ b) = a ++ pyStripR b := by
  unfold pyStripR
  rw [List.reverse_append]
  rw [dropWhile_append_of_mem (by
    obtain ⟨c, hc, hpc⟩ := h
    exact ⟨c, List.mem_reverse.mpr hc, hpc⟩) a.reverse]
  rw [List.reverse_append, List.reverse_reverse]

theorem joinNL_cons_of_ne_nil {l : List Char} {ls : List (List Char)} (h : ls ≠ []) :
    joinNL (l :: ls) = l ++ '\n' :: joinNL ls := by
  cases ls with
  | nil => exact absurd rfl h
  | cons a as => rfl

theorem mem_joinNL {c : Char} {l : List Char} :
    ∀ {ls : List (List Char)}, l ∈ ls → c ∈ l → c ∈ joinNL ls := by
  intro ls
  induction ls with
  | nil => intro h _; exact absurd h (List.not_mem_nil l)
  | cons a as ih =>
    intro hl hc
    cases as with
    | nil =>
      rcases List.mem_cons.mp hl with rfl | habs
      · exact hc
      · exact absurd habs (List.not_mem_nil l)
    | cons a2 as2 =>
      rw [joinNL_cons_of_ne_nil (by simp)]
      rcases List.mem_cons.mp hl with rfl | ht
      · exact List.mem_append.mpr (Or.inl hc)
      · exact List.mem_append.mpr (Or.inr (List.mem_cons_of_mem _ (ih ht hc)))

theorem stripLastR_length : ∀ ls : List (List Char), (stripLastR ls).length = ls.length
  | [] => rfl
  | [_] => rfl
  | l :: a :: as => by
    show (stripLastR (a :: as)).length + 1 = (a :: as).length + 1
    rw [stripLastR_length (a :: as)]

theorem stripHeadL_length : ∀ ls : List (List Char), (stripHeadL ls).length = ls.length
  | [] => rfl
  | _ :: _ => rfl

theorem mem_stripLastR : ∀ {seg : List Char} {ls : List (List Char)},
    seg ∈ stripLastR ls → seg ∈ ls ∨ ∃ l ∈ ls, seg = pyStripR l := by
  intro seg ls
  induction ls with
  | nil => intro h; exact absurd h (List.not_mem_nil seg)
  | cons a as ih =>
    intro h
    cases as with
    | nil =>
      rcases List.mem_cons.mp h with he | habs
      · exact Or.inr ⟨a, List.mem_cons_self a [], he⟩
      · exact absurd habs (List.not_mem_nil seg)
    | cons a2 as2 =>
      rcases List.mem_cons.mp h with rfl | ht
      · exact Or.inl (List.mem_cons_self _ _)
      · rcases ih ht with hin | ⟨l, hl, he⟩
        · exact Or.inl (List.mem_cons_of_mem a hin)
        · exact Or.inr ⟨l, List.mem_cons_of_mem a hl, he⟩

theorem mem_stripHeadL {seg : List Char} {ls : List (List Char)}
    (h : seg ∈ stripHeadL ls) : seg ∈ ls ∨ ∃ l ∈ ls, seg = pyStripL l := by
  cases ls with
  | nil => exact absurd h (List.not_mem_nil seg)
  | cons a as =>
    rcases List.mem_cons.mp h with he | ht
    · exact Or.inr ⟨a, List.mem_cons_self a as, he⟩
    · exact Or.inl (List.mem_cons_of_mem a ht)

theorem splitNL_stripR_joinNL :
    ∀ ls : List (List Char), (∀ l ∈ ls, '\n' ∉ l) →
      (∀ l ∈ ls, ∃ c ∈ l, pyIsSpace c = false) → ls ≠ [] →
      splitNL (pyStripR (joinNL ls)) = stripLastR ls
  | [], _, _, hne => absurd rfl hne
  | [l], hnl, _, _ => by
    have : '\n' ∉ pyStripR l :=
      fun hm => hnl l (List.mem_cons_self l []) (mem_of_pyStripR hm)
    show splitNL (pyStripR l) = [pyStripR l]
    exact splitNL_of_not_nl this
  | l :: a :: as, hnl, hws, _ => by
    have hB : ∃ c ∈ joinNL (a :: as), pyIsSpace c = false := by
      obtain ⟨c, hc, hpc⟩ := hws a (List.mem_cons_of_mem l (List.mem_cons_self a as))
      exact ⟨c, mem_joinNL (List.mem_cons_self a as) hc, hpc⟩
    have step1 : joinNL (l :: a :: as) = (l ++ ['\n']) ++ joinNL (a :: as) := by
      rw [joinNL_cons_of_ne_nil (by simp)]
      simp
    rw [step1, pyStripR_append _ hB]
    have step2 : (l ++ ['\n']) ++ pyStripR (joinNL (a :: as))
        = l ++ '\n' :: pyStripR (joinNL (a :: as)) := by simp
    rw [step2, splitNL_append (hnl l (List.mem_cons_self _ _))]
    rw [splitNL_stripR_joinNL (a :: as)
      (fun x hx => hnl x (List.mem_cons_of_mem l hx))
      (fun x hx => hws x (List.mem_cons_of_mem l hx)) (by simp)]
    rfl

theorem splitNL_strip_joinNL :
    ∀ ls : List (List Char), (∀ l ∈ ls, '\n' ∉ l) →
      (∀ l ∈ ls, ∃ c ∈ l, pyIsSpace c = false) → ls ≠ [] →
      splitNL (pyStrip (joinNL ls)) = stripLastR (stripHeadL ls)
  | [], _, _, hne => absurd rfl hne
  | [l], hnl, hws, _ => by
    show splitNL (pyStrip l) = stripLastR [pyStripL l]
    have : '\n' ∉ pyStrip l := fun hm =>
      hnl l (List.mem_cons_self l []) (mem_of_pyStripL (mem_of_pyStripR hm))
    exact splitNL_of_not_nl this
  | l :: a :: as, hnl, hws, _ => by
    have hwl : ∃ c ∈ l, pyIsSpace c = false := hws l (List.mem_cons_self _ _)
    have inner : pyStripL (joinNL (l :: a :: as)) = joinNL (pyStripL l :: a :: as) := by
      show pyStripL (l ++ '\n' :: joinNL (a :: as))
          = pyStripL l ++ '\n' :: joinNL (a :: as)
      exact pyStripL_append hwl ('\n' :: joinNL (a :: as))
    have step1 : pyStrip (joinNL (l :: a :: as))
        = pyStripR (joinNL (pyStripL l :: a :: as)) := congrArg pyStripR inner
    rw [step1]
    have hres := splitNL_stripR_joinNL (pyStripL l :: a :: as) ?hnl2 ?hws2 (by simp)
    case hnl2 =>
      intro x hx
      rcases List.mem_cons.mp hx with rfl | ht
      · exact fun hm => hnl l (List.mem_cons_self _ _) (mem_of_pyStripL hm)
      · exact hnl x (List.mem_cons_of_mem l ht)
    case hws2 =>
      intro x hx
      rcases List.mem_cons.mp hx with rfl | ht
      · obtain ⟨c, hc, hpc⟩ := hwl
        exact ⟨c, mem_pyStripL hc hpc, hpc⟩
      · exact hws x (List.mem_cons_of_mem l ht)
    rw [hres]
    rfl

theorem mem_getTreePrefix {c : Char} {st : List Entry} {i d : Nat}
    (hc : c ∈ getTreePrefix st i d) : c ∈ ['└', '─', ' ', '├', '│'] := by
  unfold getTreePrefix at hc
  by_cases hd : d = 0
  · rw [if_pos hd] at hc
    exact absurd hc (List.not_mem_nil c)
  · rw [if_neg hd] at hc
    rw [List.mem_flatten] at hc
    obtain ⟨tok, htok, hctok⟩ := hc
    rw [List.mem_map] at htok
    obtain ⟨lvl, _, rfl⟩ := htok
    unfold pfxToken at hctok
    by_cases h1 : lvl = d - 1
    · rw [if_pos h1] at hctok
      by_cases h2 : is_last_child_at_depth st i = true
      · rw [if_pos h2] at hctok
        exact (by decide : ∀ x ∈ "└── ".toList, x ∈ ['└', '─', ' ', '├', '│']) c hctok
      · rw [if_neg h2] at hctok
        exact (by decide : ∀ x ∈ "├── ".toList, x ∈ ['└', '─', ' ', '├', '│']) c hctok
    · rw [if_neg h1] at hctok
      by_cases h2 : has_more_siblings_at_level st i (lvl + 1) = true
      · rw [if_pos h2] at hctok
        exact (by decide : ∀ x ∈ "│   ".toList, x ∈ ['└', '─', ' ', '├', '│']) c hctok
      · rw [if_neg h2] at hctok
        exact (by decide : ∀ x ∈ "    ".toList, x ∈ ['└', '─', ' ', '├', '│']) c hctok

theorem renderLine_decomp {st : List Entry} {i : Nat} (hi : i < st.length) :
    ∃ e, e ∈ st ∧
      renderLine st i = getTreePrefix st i e.depth ++ iconOf e.isFile :: ' ' :: e.name := by
  refine ⟨st[i], List.getElem_mem hi, ?_⟩
  unfold renderLine
  rw [List.getElem?_eq_getElem hi]

theorem renderLine_no_nl {st : List Entry} {i : Nat} (hi : i < st.length)
    (hnames : ∀ e ∈ st, '\n' ∉ e.name) : '\n' ∉ renderLine st i := by
  obtain ⟨e, hmem, heq⟩ := renderLine_decomp hi
  rw [heq]
  intro hin
  rcases List.mem_append.mp hin with hp | hr
  · exact absurd (mem_getTreePrefix hp) (by decide)
  · rcases List.mem_cons.mp hr with hic | hr2
    · cases hb : e.isFile <;> rw [hb] at hic <;> exact absurd hic (by decide)
    · rcases List.mem_cons.mp hr2 with hsp | hname
      · exact absurd hsp (by decide)
      · exact hnames e hmem hname

theorem renderLine_hasKeep {st : List Entry} {i : Nat} (hi : i < st.length) :
    HasKeep (renderLine st i) := by
  obtain ⟨e, _, heq⟩ := renderLine_decomp hi
  refine ⟨iconOf e.isFile, ?_, ?_, ?_⟩
  · rw [heq]
    exact List.mem_append.mpr (Or.inr (List.mem_cons_self _ _))
  · cases hb : e.isFile <;> decide
  · cases hb : e.isFile <;> decide

theorem hasKeep_pyStripL {l : List Char} (h : HasKeep l) : HasKeep (pyStripL l) := by
  obtain ⟨c, hc, hws, hg⟩ := h
  exact ⟨c, mem_pyStripL hc hws, hws, hg⟩

theorem hasKeep_pyStripR {l : List Char} (h : HasKeep l) : HasKeep (pyStripR l) := by
  obtain ⟨c, hc, hws, hg⟩ := h
  exact ⟨c, mem_pyStripR hc hws, hws, hg⟩

theorem hasKeep_of_mem_segments {seg : List Char} {ls : List (List Char)}
    (hk : ∀ l ∈ ls, HasKeep l) (hmem : seg ∈ stripLastR (stripHeadL ls)) :
    HasKeep seg := by
  have hk2 : ∀ l ∈ stripHeadL ls, HasKeep l := by
    intro l hl
    rcases mem_stripHeadL hl with hin | ⟨x, hx, rfl⟩
    · exact hk l hin
    · exact hasKeep_pyStripL (hk x hx)
  rcases mem_stripLastR hmem with hin | ⟨x, hx, rfl⟩
  · exact hk2 seg hin
  · exact hasKeep_pyStripR (hk2 x hx)

theorem parse_render_length_aux :
    ∀ st : List Entry, (∀ e ∈ st, '\n' ∉ e.name) →
      (parse_tree_text (exportText st)).length = st.length := by
  intro st h
  cases st with
  | nil => decide
  | cons e0 rest =>
    have hlen : (renderLines (e0 :: rest)).length = (e0 :: rest).length := by
      simp [renderLines]
    have hmemline : ∀ l ∈ renderLines (e0 :: rest),
        ∃ i : Nat, i < (e0 :: rest).length ∧ l = renderLine (e0 :: rest) i := by
      intro l hl
      unfold renderLines at hl
      rw [List.mem_map] at hl
      obtain ⟨i, hi, rfl⟩ := hl
      exact ⟨i, List.mem_range.mp hi, rfl⟩
    have hnl : ∀ l ∈ renderLines (e0 :: rest), '\n' ∉ l := by
      intro l hl
      obtain ⟨i, hi, rfl⟩ := hmemline l hl
      exact renderLine_no_nl hi h
    have hkeep : ∀ l ∈ renderLines (e0 :: rest), HasKeep l := by
      intro l hl
      obtain ⟨i, hi, rfl⟩ := hmemline l hl
      exact renderLine_hasKeep hi
    have hws : ∀ l ∈ renderLines (e0 :: rest), ∃ c ∈ l, pyIsSpace c = false := by
      intro l hl
      obtain ⟨c, hc, hcws, _⟩ := hkeep l hl
      exact ⟨c, hc, hcws⟩
    have hne : renderLines (e0 :: rest) ≠ [] := by
      intro habs
      rw [habs] at hlen
      exact absurd hlen.symm (by simp)
    unfold parse_tree_text exportText
    rw [splitNL_strip_joinNL (renderLines (e0 :: rest)) hnl hws hne]
    rw [length_filterMap_of_isSome (fun seg hseg =>
      parseEntryOfLine_isSome (hasKeep_of_mem_segments hkeep hseg))]
    rw [stripLastR_length, stripHeadL_length, hlen]

/-- C2 counterexample: for the well-formed pre-order sequence
`[("a",0,folder), ("b",1,file)]`, parsing the connector-style rendering
does NOT reproduce the sequence: the type icons are absorbed into the
names (`"📁 a"`, `"📄 b"`), the depth of `b` comes back as 0 (its
prefix `"└── "` contains no vertical-bar glyph to count), and the file
flag is re-derived from the mangled names, turning `b` into a folder. -/
theorem render_parse_roundtrip_cex :
    parse_tree_text (exportText [⟨"a".toList, 0, false⟩, ⟨"b".toList, 1, true⟩])
      = [⟨"📁 a".toList, 0, false⟩, ⟨"📄 b".toList, 0, false⟩]
    ∧ parse_tree_text (exportText [⟨"a".toList, 0, false⟩, ⟨"b".toList, 1, true⟩])
      ≠ [⟨"a".toList, 0, false⟩, ⟨"b".toList, 1, true⟩] := by decide

/-- C2 amended: parsing the connector-style rendering of any entry
sequence whose names contain no newline yields exactly one parsed entry
per original entry (the entry COUNT round-trips — every rendered line
survives blank-skipping and glyph removal thanks to its icon), but the
`(name, depth, is_file)` triples themselves are not reproduced: icon
glyphs are absorbed into names rather than stripped, and the
connector-dialect depth is the vertical-bar count of the prefix, which
undercounts the true depth. -/
theorem render_parse_length :
    ∀ st : List Entry, (∀ e ∈ st, '\n' ∉ e.name) →
      (parse_tree_text (exportText st)).length = st.length :=
  parse_render_length_aux

theorem render_parse_length_witness :
    (∀ e ∈ ([⟨"a".toList, 0, false⟩, ⟨"b.txt".toList, 1, true⟩,
        ⟨"c".toList, 1, false⟩] : List Entry), '\n' ∉ e.name)
    ∧ (parse_tree_text (exportText ([⟨"a".toList, 0, false⟩,
        ⟨"b.txt".toList, 1, true⟩, ⟨"c".toList, 1, false⟩] : List Entry))).length
      = ([⟨"a".toList, 0, false⟩, ⟨"b.txt".toList, 1, true⟩,
        ⟨"c".toList, 1, false⟩] : List Entry).length :=
  ⟨by decide, render_parse_length ([⟨"a".toList, 0, false⟩,
    ⟨"b.txt".toList, 1, true⟩, ⟨"c".toList, 1, false⟩] : List Entry) (by decide)⟩
